import Mathlib

/-!
Verification of the audio chunking / transcript assembly pipeline of the
meetings-ai-obsidian plugin.

The development shallowly embeds, over ideal arithmetic (`ℚ` for sample and
time values, `Nat` for bytes), the functions

  * `src/utils/audioDataToChunkedFiles.ts`
      (`audioDataToChunkedFiles`, `audioBufferToMono`, `audioBufferToWav`),
  * `src/transcribeAudio.ts`
      (`transcribeWhisper`, `transcribeDiarize`, `mixBasePromptAndTranscript`),
  * `src/MeetingWidget.ts` (`formatSpeakerLabel`),

and proves the stated properties of that pipeline.  External facilities
(the browser `decodeAudioData`, the OpenAI network calls, the
`gpt-tokenizer` package) are inputs of the embedded functions: a decoded
audio buffer, the per-chunk raw API results, and an abstract
encode/decode pair, respectively.
-/

namespace MeetingsAI

/-! ### JavaScript numeric / array semantics helpers -/

/-- Truncation toward zero, the integer conversion JavaScript applies inside
`DataView.setInt16` (ECMAScript `ToInt16` first does `truncate`). -/
def jsTrunc (x : ℚ) : Int :=
  if 0 ≤ x then ⌊x⌋ else ⌈x⌉

/-- The 16-bit pattern stored by `DataView.setInt16 v`: truncate toward zero,
then reduce modulo 2^16 (ECMAScript `ToInt16`).  No clamping is performed. -/
def jsToInt16Bits (x : ℚ) : Nat :=
  ((jsTrunc x) % (65536 : Int)).toNat

/-- Little-endian byte pair written by `DataView.setInt16 (x) true`. -/
def int16le (x : ℚ) : List Nat :=
  [jsToInt16Bits x % 256, jsToInt16Bits x / 256]

/-- Little-endian bytes of `DataView.setUint16`. -/
def u16le (v : Nat) : List Nat :=
  [v % 256, v / 256 % 256]

/-- Little-endian bytes of `DataView.setUint32`. -/
def u32le (v : Nat) : List Nat :=
  [v % 256, v / 256 % 256, v / 65536 % 256, v / 16777216 % 256]

/-- Bytes written by the source's `writeString` helper (`charCodeAt` per
character; all strings written are ASCII). -/
def asciiBytes (s : String) : List Nat :=
  s.toList.map Char.toNat

/-- `Array.prototype.slice (start)` with a possibly negative start index,
per ECMAScript: a negative start counts from the end (clamped at 0), a
non-negative start drops that many elements from the front. -/
def jsSliceFrom (l : List α) (start : Int) : List α :=
  if start < 0 then l.drop (l.length - min (-start).toNat l.length)
  else l.drop (min start.toNat l.length)

/-! ### Chunk encoder (`src/utils/audioDataToChunkedFiles.ts`) -/

/-- `AudioChunk` of the source: the encoded file's bytes plus the duration in
seconds recorded for timestamp correction. -/
structure AudioChunk where
  bytes : List Nat
  duration : ℚ
deriving Repr, DecidableEq

/-- The result of the browser's `decodeAudioData`: per-channel sample data
(all channels have equal length in a real `AudioBuffer`) and the sample
rate. -/
structure DecodedAudio where
  channels : List (List ℚ)
  sampleRate : Nat
deriving Repr, DecidableEq

/-- `audioBufferToMono`: average all channels samplewise; a mono buffer is
passed through unchanged.  `getD i 0` models `getChannelData(channel)[i]`
(in a real `AudioBuffer` every channel has the full length). -/
def audioBufferToMono (d : DecodedAudio) : List ℚ :=
  if d.channels.length = 1 then d.channels.headD []
  else
    let length := (d.channels.headD []).length
    (List.range length).map (fun i =>
      ((d.channels.map (fun ch => ch.getD i 0)).sum) / (d.channels.length : ℚ))

/-- The 44-byte canonical WAV header written by `audioBufferToWav`;
`dataLen` is the byte length of the PCM data section. -/
def wavHeader (numOfChannels sampleRate dataLen : Nat) : List Nat :=
  asciiBytes ("RIFF") ++ u32le (36 + dataLen) ++ asciiBytes ("WAVE") ++
    asciiBytes ("fmt ") ++ u32le 16 ++ u16le 1 ++ u16le numOfChannels ++
    u32le sampleRate ++ u32le (sampleRate * numOfChannels * 2) ++
    u16le (numOfChannels * 2) ++ u16le 16 ++ asciiBytes ("data") ++
    u32le dataLen

/-- `audioBufferToWav`: 44-byte header followed by the interleaved PCM
samples; each sample is scaled by `0x7fff` and narrowed by `setInt16`
(truncation toward zero, modulo 2^16 — the source performs no rounding and
no clamping). -/
def audioBufferToWav (channels : List (List ℚ)) (sampleRate : Nat) : List Nat :=
  let numOfChannels := channels.length
  let frames := (channels.headD []).length
  let dataLen := frames * numOfChannels * 2
  wavHeader numOfChannels sampleRate dataLen ++
    ((List.range frames).map (fun i =>
      (channels.map (fun ch => int16le ((ch.getD i 0) * 32767))).flatten)).flatten

/-- Outcome of `audioDataToChunkedFiles`.  `domError` marks the one input
region where the browser itself throws (`createBuffer` with length 0 raises
`NotSupportedError`); everywhere else the source returns a chunk list.  The
source defines no error of its own. -/
inductive ChunkedFilesResult where
  | ok (chunks : List AudioChunk)
  | domError
deriving Repr, DecidableEq

/-- Loop body of the slow path: slice `[i*chunkSamples, min ((i+1)*chunkSamples) total)`
out of the mono data, re-encode as a standalone WAV, and record
`duration = sliceLength / sampleRate` (`AudioBuffer.duration`). -/
def sliceChunk (mono : List ℚ) (sampleRate : Nat) (cs i : Nat) : AudioChunk :=
  let startSample := i * cs
  let endSample := min ((i + 1) * cs) mono.length
  let slice := (mono.drop startSample).take (endSample - startSample)
  { bytes := audioBufferToWav [slice] sampleRate
    duration := ((endSample - startSample : Nat) : ℚ) / (sampleRate : ℚ) }

/-- `audioDataToChunkedFiles audioData decoded maxSize`.

Fast path: if the raw bytes already fit in `maxSize`, the single chunk wraps
the original bytes with `duration = 0`; `decoded` is not consulted.

Slow path: `chunkSamples = Math.floor ((maxSize - 44) / 2)` (floor division,
`Int.fdiv`), `nChunks = Math.ceil (T / chunkSamples)`, then one WAV chunk per
slice.  The two degenerate budgets are modelled from the source's JavaScript
semantics: for `chunkSamples < 0` (`maxSize < 44`) `nChunks` is negative so
the loop never runs and `[]` is returned; for `chunkSamples = 0` with
nonempty mono data `nChunks` is `Infinity` and the first iteration calls
`createBuffer` with length 0, which throws a DOM `NotSupportedError`
(`domError`); for `chunkSamples = 0` with empty mono data `nChunks` is `NaN`
and the loop never runs. -/
def audioDataToChunkedFiles (audioData : List Nat) (decoded : DecodedAudio)
    (maxSize : Int) : ChunkedFilesResult :=
  if (audioData.length : Int) ≤ maxSize then
    .ok [{ bytes := audioData, duration := 0 }]
  else
    let monoBuffer := audioBufferToMono decoded
    let chunkSamples : Int := (maxSize - 44).fdiv 2
    if chunkSamples ≤ 0 then
      if chunkSamples = 0 ∧ monoBuffer.length ≠ 0 then .domError else .ok []
    else
      let cs := chunkSamples.toNat
      let nChunks := (monoBuffer.length + cs - 1) / cs
      .ok ((List.range nChunks).map (sliceChunk monoBuffer decoded.sampleRate cs))

/-! ### Transcription orchestrator / segment assembler (`src/transcribeAudio.ts`)

The network call per chunk is the only external step; the embedding takes
the raw per-chunk API results as input, paired with the chunks they answer,
and performs exactly the assembly the source performs. -/

/-- `TranscriptSegment` of the source (`end` is a reserved word in Lean and
is embedded as `end_`). -/
structure TranscriptSegment where
  id : Nat
  start : ℚ
  end_ : ℚ
  text : String
  speaker : Option String
deriving Repr, DecidableEq

/-- One raw segment of a per-chunk API response: `{ start, end, text, speaker? }`
in chunk-local time.  The legacy variant's responses carry no speaker. -/
structure RawSegment where
  start : ℚ
  end_ : ℚ
  text : String
  speaker : Option String
deriving Repr, DecidableEq

/-- One raw per-chunk API response: `{ text, segments }`. -/
structure RawChunkResult where
  text : String
  segments : List RawSegment
deriving Repr, DecidableEq

/-- `TranscriptionResult` of the source. -/
structure TranscriptionResult where
  text : String
  segments : List TranscriptSegment
deriving Repr, DecidableEq

/-- The chunk loop of `transcribeDiarize`: for the `j`-th raw segment of a
chunk push `{ id := segmentIdOffset + j, start := seg.start + timeOffset,
end := seg.end + timeOffset, text := seg.text.trim, speaker := seg.speaker }`;
after a chunk, `segmentIdOffset` becomes the accumulated length and
`timeOffset` grows by the chunk's encoder-computed duration. -/
def diarizeLoop : List (AudioChunk × RawChunkResult) → List TranscriptSegment →
    Nat → ℚ → List TranscriptSegment
  | [], allSegments, _, _ => allSegments
  | (chunk, res) :: rest, allSegments, segmentIdOffset, timeOffset =>
    let newSegs := res.segments.enum.map (fun p =>
      { id := segmentIdOffset + p.1
        start := p.2.start + timeOffset
        end_ := p.2.end_ + timeOffset
        text := p.2.text.trim
        speaker := p.2.speaker : TranscriptSegment })
    diarizeLoop rest (allSegments ++ newSegs)
      (allSegments.length + newSegs.length) (timeOffset + chunk.duration)

/-- `transcribeDiarize`: run the chunk loop from the empty accumulator, then
derive the full text by joining all assembled segments' texts with single
spaces. -/
def transcribeDiarize (chunks : List (AudioChunk × RawChunkResult)) :
    TranscriptionResult :=
  let allSegments := diarizeLoop chunks [] 0 0
  { text := String.intercalate (" ") (allSegments.map (fun s => s.text))
    segments := allSegments }

/-- The chunk loop of `transcribeWhisper`: same segment assembly as the
diarize loop (responses carry no speaker), plus the running `fullText`
accumulation: chunk 0's trimmed text directly, every later chunk preceded by
a single space. -/
def whisperLoop : List (AudioChunk × RawChunkResult) → Nat → String →
    List TranscriptSegment → Nat → ℚ → String × List TranscriptSegment
  | [], _, fullText, allSegments, _, _ => (fullText, allSegments)
  | (chunk, res) :: rest, i, fullText, allSegments, segmentIdOffset, timeOffset =>
    let chunkText := res.text.trim
    let sep := if i = 0 then ("") else (" ")
    let fullText1 := fullText ++ sep ++ chunkText
    let newSegs := res.segments.enum.map (fun p =>
      { id := segmentIdOffset + p.1
        start := p.2.start + timeOffset
        end_ := p.2.end_ + timeOffset
        text := p.2.text.trim
        speaker := none : TranscriptSegment })
    whisperLoop rest (i + 1) fullText1 (allSegments ++ newSegs)
      (allSegments.length + newSegs.length) (timeOffset + chunk.duration)

/-- `transcribeWhisper` (legacy variant).  `basePrompt` is the fixed hint;
it only influences the prompts sent to the service, not the assembly of the
given responses. -/
def transcribeWhisper (basePrompt : String)
    (chunks : List (AudioChunk × RawChunkResult)) : TranscriptionResult :=
  let r := whisperLoop chunks 0 ("") [] 0 0
  { text := r.1, segments := r.2 }

/-- `WHISPER_TOKEN_LIMIT` of the source. -/
def whisperTokenLimit : Nat := 224

/-- Token-level core of `mixBasePromptAndTranscript`:
`promptTokens.concat (transcriptTokens.slice (-availableTokens))` with
`availableTokens = 224 - promptTokens.length` (JavaScript number
arithmetic — the subtraction may be zero or negative, and `slice` then
behaves per `jsSliceFrom`). -/
def mixTokens (promptTokens transcriptTokens : List Nat) : List Nat :=
  let availableTokens : Int := (whisperTokenLimit : Int) - promptTokens.length
  promptTokens ++ jsSliceFrom transcriptTokens (-availableTokens)

/-- `mixBasePromptAndTranscript`, parameterized by the external
`gpt-tokenizer` `encode`/`decode` pair.  An empty transcript returns the
base prompt unchanged; otherwise the base prompt plus an ellipsis separator
is tokenized and the trailing transcript tokens are appended. -/
def mixBasePromptAndTranscript (encode : String → List Nat)
    (decode : List Nat → String) (basePrompt transcript : String) : String :=
  if transcript.length = 0 then basePrompt
  else
    let promptTokens := encode (basePrompt ++ " … ")
    let transcriptTokens := encode transcript
    decode (mixTokens promptTokens transcriptTokens)

/-! ### Speaker label normalization (`src/MeetingWidget.ts`, `formatSpeakerLabel`) -/

/-- Decide `'0' ≤ c ≤ '9'` (the `\d` character class). -/
def isDigitChar (c : Char) : Bool :=
  decide ('0' ≤ c) && decide (c ≤ '9')

/-- Value of a digit string, as `parseInt (digits) 10` computes it. -/
def digitsVal (cs : List Char) : Nat :=
  cs.foldl (fun a c => a * 10 + (c.toNat - 48)) 0

/-- Match of `/^speaker_(\d+)$/i`: a case-insensitive `speaker_` prefix
followed by one or more digits; yields the parsed number. -/
def speakerNumMatch (raw : String) : Option Nat :=
  let cs := raw.toList
  let pre := cs.take 8
  let rest := cs.drop 8
  if pre.map Char.toLower = ("speaker_").toList ∧ rest ≠ [] ∧
      rest.all isDigitChar then
    some (digitsVal rest)
  else none

/-- Match of `/^([A-Z])$/i` followed by the source's
`toUpperCase().charCodeAt(0) - 64` computation: a single Latin letter of
either case yields its 1-based alphabet position. -/
def singleLetterMatch (raw : String) : Option Nat :=
  match raw.toList with
  | [c] =>
    if (decide ('A' ≤ c) && decide (c ≤ 'Z')) ||
        (decide ('a' ≤ c) && decide (c ≤ 'z')) then
      some (c.toUpper.toNat - 64)
    else none
  | _ => none

/-- `formatSpeakerLabel`: `speaker_<N>` maps to `"Speaker " ++ (N+1)`, a
single letter maps to `"Speaker " ++ alphabetPosition`, anything else is
returned unchanged. -/
def formatSpeakerLabel (raw : String) : String :=
  match speakerNumMatch raw with
  | some n => "Speaker " ++ toString (n + 1)
  | none =>
    match singleLetterMatch raw with
    | some idx => "Speaker " ++ toString idx
    | none => raw

/-! ### Derived quantities and specification-side definitions -/

/-- Total number of raw segments across a chunk list. -/
def segTotal (l : List (AudioChunk × RawChunkResult)) : Nat :=
  (l.map (fun p => p.2.segments.length)).sum

/-- Sum of the encoder-computed durations of a chunk list. -/
def durTotal (l : List (AudioChunk × RawChunkResult)) : ℚ :=
  (l.map (fun p => p.1.duration)).sum

/-- The segment either assembly loop builds for the `j`-th raw segment of a
chunk processed at id offset `idOff` and time offset `tOff`; `keep`
distinguishes the diarize loop (speaker copied) from the whisper loop
(speaker absent). -/
def mkSeg (keep : Bool) (idOff : Nat) (tOff : ℚ) (p : Nat × RawSegment) :
    TranscriptSegment :=
  { id := idOff + p.1
    start := p.2.start + tOff
    end_ := p.2.end_ + tOff
    text := p.2.text.trim
    speaker := if keep then p.2.speaker else none }

/-- Closed form of the two assembly loops: each chunk contributes its raw
segments shifted by the running offsets, the offsets advancing by the
chunk's segment count and duration. -/
def assembleFrom (keep : Bool) (idOff : Nat) (tOff : ℚ) :
    List (AudioChunk × RawChunkResult) → List TranscriptSegment
  | [] => []
  | (chunk, res) :: rest =>
    res.segments.enum.map (mkSeg keep idOff tOff) ++
      assembleFrom keep (idOff + res.segments.length)
        (tOff + chunk.duration) rest

/-- The sequence of assembled segment start times, in result order. -/
def startsFrom (tOff : ℚ) :
    List (AudioChunk × RawChunkResult) → List ℚ
  | [] => []
  | (chunk, res) :: rest =>
    res.segments.map (fun s => s.start + tOff) ++
      startsFrom (tOff + chunk.duration) rest

/-- A chunk paired with a well-formed API response: a non-negative duration,
chunk-local start times within `[0, duration]`, and start times
non-decreasing in response order. -/
def validChunk (p : AudioChunk × RawChunkResult) : Prop :=
  0 ≤ p.1.duration ∧
    (∀ s ∈ p.2.segments, 0 ≤ s.start ∧ s.start ≤ p.1.duration) ∧
    List.Chain' (fun a b : RawSegment => a.start ≤ b.start) p.2.segments

instance decChainStart : (l : List RawSegment) →
    Decidable (List.Chain' (fun a b : RawSegment => a.start ≤ b.start) l)
  | [] => .isTrue List.chain'_nil
  | [a] => .isTrue (List.chain'_singleton a)
  | a :: b :: rest =>
    have d2 := decChainStart (b :: rest)
    decidable_of_iff (a.start ≤ b.start ∧
      List.Chain' (fun a b : RawSegment => a.start ≤ b.start) (b :: rest))
      (by rw [List.chain'_cons])

instance (p : AudioChunk × RawChunkResult) : Decidable (validChunk p) :=
  inferInstanceAs (Decidable (0 ≤ p.1.duration ∧
    (∀ s ∈ p.2.segments, 0 ≤ s.start ∧ s.start ≤ p.1.duration) ∧
    List.Chain' (fun a b : RawSegment => a.start ≤ b.start) p.2.segments))

/-- A valid orchestrator input: every chunk's response is well-formed. -/
def validInput (l : List (AudioChunk × RawChunkResult)) : Prop :=
  ∀ p ∈ l, validChunk p

instance (l : List (AudioChunk × RawChunkResult)) : Decidable (validInput l) :=
  inferInstanceAs (Decidable (∀ p ∈ l, validChunk p))

/-- Modelled from the spec's words, for comparison with the source: the PCM
data section the spec describes, `round (sample * 32767)` written as 16-bit
little-endian values (reduced modulo 2^16 like any 16-bit store). -/
def wavDataRoundSpec (samples : List ℚ) : List Nat :=
  (samples.map (fun s =>
    let bits := ((round (s * 32767) : Int) % (65536 : Int)).toNat
    [bits % 256, bits / 256])).flatten

/-! ### Lemmas: the assembly loops versus their closed form -/

theorem diarizeLoop_eq (l : List (AudioChunk × RawChunkResult)) :
    ∀ (acc : List TranscriptSegment) (tOff : ℚ),
      diarizeLoop l acc acc.length tOff = acc ++ assembleFrom true acc.length tOff l := by
  induction l with
  | nil => intro acc tOff; simp [diarizeLoop, assembleFrom]
  | cons p rest ih =>
    intro acc tOff
    obtain ⟨chunk, res⟩ := p
    have hfun : (fun q : Nat × RawSegment =>
        ({ id := acc.length + q.1, start := q.2.start + tOff, end_ := q.2.end_ + tOff,
           text := q.2.text.trim, speaker := q.2.speaker } : TranscriptSegment)) =
        mkSeg true acc.length tOff := by
      funext q; simp [mkSeg]
    have hlen : (res.segments.enum.map (mkSeg true acc.length tOff)).length =
        res.segments.length := by
      simp [List.enum_length]
    calc diarizeLoop ((chunk, res) :: rest) acc acc.length tOff
        = diarizeLoop rest (acc ++ res.segments.enum.map (mkSeg true acc.length tOff))
            (acc.length + (res.segments.enum.map (mkSeg true acc.length tOff)).length)
            (tOff + chunk.duration) := by
          simp only [diarizeLoop, hfun]
      _ = diarizeLoop rest (acc ++ res.segments.enum.map (mkSeg true acc.length tOff))
            (acc ++ res.segments.enum.map (mkSeg true acc.length tOff)).length
            (tOff + chunk.duration) := by
          rw [List.length_append]
      _ = acc ++ assembleFrom true acc.length tOff ((chunk, res) :: rest) := by
          rw [ih]
          simp only [assembleFrom, List.length_append, hlen, List.append_assoc]

theorem whisperLoop_eq (l : List (AudioChunk × RawChunkResult)) :
    ∀ (i : Nat) (fullText : String) (acc : List TranscriptSegment) (tOff : ℚ),
      (whisperLoop l i fullText acc acc.length tOff).2 =
        acc ++ assembleFrom false acc.length tOff l := by
  induction l with
  | nil => intro i fullText acc tOff; simp [whisperLoop, assembleFrom]
  | cons p rest ih =>
    intro i fullText acc tOff
    obtain ⟨chunk, res⟩ := p
    have hfun : (fun q : Nat × RawSegment =>
        ({ id := acc.length + q.1, start := q.2.start + tOff, end_ := q.2.end_ + tOff,
           text := q.2.text.trim, speaker := none } : TranscriptSegment)) =
        mkSeg false acc.length tOff := by
      funext q; simp [mkSeg]
    have hlen : (res.segments.enum.map (mkSeg false acc.length tOff)).length =
        res.segments.length := by
      simp [List.enum_length]
    calc (whisperLoop ((chunk, res) :: rest) i fullText acc acc.length tOff).2
        = (whisperLoop rest (i + 1)
            (fullText ++ (if i = 0 then ("") else (" ")) ++ res.text.trim)
            (acc ++ res.segments.enum.map (mkSeg false acc.length tOff))
            (acc.length + (res.segments.enum.map (mkSeg false acc.length tOff)).length)
            (tOff + chunk.duration)).2 := by
          simp only [whisperLoop, hfun]
      _ = (whisperLoop rest (i + 1)
            (fullText ++ (if i = 0 then ("") else (" ")) ++ res.text.trim)
            (acc ++ res.segments.enum.map (mkSeg false acc.length tOff))
            (acc ++ res.segments.enum.map (mkSeg false acc.length tOff)).length
            (tOff + chunk.duration)).2 := by
          rw [List.length_append]
      _ = acc ++ assembleFrom false acc.length tOff ((chunk, res) :: rest) := by
          rw [ih]
          simp only [assembleFrom, List.length_append, hlen, List.append_assoc]

theorem transcribeDiarize_segments (l : List (AudioChunk × RawChunkResult)) :
    (transcribeDiarize l).segments = assembleFrom true 0 0 l := by
  have h := diarizeLoop_eq l [] 0
  simpa [transcribeDiarize] using h

theorem transcribeWhisper_segments (basePrompt : String)
    (l : List (AudioChunk × RawChunkResult)) :
    (transcribeWhisper basePrompt l).segments = assembleFrom false 0 0 l := by
  have h := whisperLoop_eq l 0 ("") [] 0
  simpa [transcribeWhisper] using h

/-! ### Lemmas: id sequence, per-segment offsets, start monotonicity -/

theorem assembleFrom_ids (keep : Bool) (l : List (AudioChunk × RawChunkResult)) :
    ∀ (idOff : Nat) (tOff : ℚ),
      (assembleFrom keep idOff tOff l).map (fun s => s.id) =
        List.range' idOff (segTotal l) := by
  induction l with
  | nil => intro idOff tOff; simp [assembleFrom, segTotal]
  | cons p rest ih =>
    intro idOff tOff
    obtain ⟨chunk, res⟩ := p
    have hblock : (res.segments.enum.map (mkSeg keep idOff tOff)).map (fun s => s.id) =
        List.range' idOff res.segments.length := by
      rw [List.map_map]
      have : ((fun s : TranscriptSegment => s.id) ∘ mkSeg keep idOff tOff) =
          (fun x => idOff + x) ∘ Prod.fst := by
        funext q; simp [mkSeg]
      rw [this, ← List.map_map, List.enum_map_fst, ← List.range'_eq_map_range]
    have happ := List.range'_append idOff res.segments.length (segTotal rest) 1
    simp only [one_mul] at happ
    calc (assembleFrom keep idOff tOff ((chunk, res) :: rest)).map (fun s => s.id)
        = List.range' idOff res.segments.length ++
            List.range' (idOff + res.segments.length) (segTotal rest) := by
          simp only [assembleFrom, List.map_append, hblock,
            ih (idOff + res.segments.length) (tOff + chunk.duration)]
      _ = List.range' idOff (segTotal ((chunk, res) :: rest)) := by
          rw [happ]
          simp [segTotal, Nat.add_comm]

theorem assembleFrom_getElem (keep : Bool) :
    ∀ (l : List (AudioChunk × RawChunkResult)) (i j : Nat) (idOff : Nat) (tOff : ℚ)
      (c : AudioChunk) (r : RawChunkResult) (raw : RawSegment),
      l[i]? = some (c, r) → r.segments[j]? = some raw →
      (assembleFrom keep idOff tOff l)[segTotal (l.take i) + j]? =
        some (mkSeg keep (idOff + segTotal (l.take i))
          (tOff + durTotal (l.take i)) (j, raw)) := by
  intro l
  induction l with
  | nil => intro i j idOff tOff c r raw h1; simp at h1
  | cons p rest ih =>
    intro i j idOff tOff c r raw h1 h2
    obtain ⟨chunk, res⟩ := p
    match i with
    | 0 =>
      simp only [List.getElem?_cons_zero, Option.some.injEq] at h1
      cases h1
      have hj : j < r.segments.length := by
        by_contra hlt
        push_neg at hlt
        rw [List.getElem?_eq_none hlt] at h2
        exact Option.noConfusion h2
      simp only [List.take_zero, segTotal, durTotal, List.map_nil, List.sum_nil,
        Nat.zero_add, zero_add, add_zero, Nat.add_zero]
      simp only [assembleFrom]
      rw [List.getElem?_append, if_pos (by simpa [List.enum_length] using hj)]
      rw [List.getElem?_map, List.getElem?_enum, h2]
      rfl
    | Nat.succ i' =>
      simp only [List.getElem?_cons_succ] at h1
      have hstep := ih i' j (idOff + res.segments.length) (tOff + chunk.duration)
        c r raw h1 h2
      have hlen : (res.segments.enum.map (mkSeg keep idOff tOff)).length =
          res.segments.length := by simp [List.enum_length]
      have htake : segTotal (((chunk, res) :: rest).take (i' + 1)) =
          res.segments.length + segTotal (rest.take i') := by
        simp [segTotal, List.take_succ_cons]
      have hdur : durTotal (((chunk, res) :: rest).take (i' + 1)) =
          chunk.duration + durTotal (rest.take i') := by
        simp [durTotal, List.take_succ_cons]
      rw [htake, hdur]
      simp only [assembleFrom]
      rw [List.getElem?_append_right (by omega : (res.segments.enum.map
        (mkSeg keep idOff tOff)).length ≤ res.segments.length + segTotal (rest.take i') + j)]
      rw [hlen]
      have hidx : res.segments.length + segTotal (rest.take i') + j -
          res.segments.length = segTotal (rest.take i') + j := by omega
      rw [hidx, hstep]
      congr 2
      · omega
      · ring

theorem assembleFrom_starts (keep : Bool) (l : List (AudioChunk × RawChunkResult)) :
    ∀ (idOff : Nat) (tOff : ℚ),
      (assembleFrom keep idOff tOff l).map (fun s => s.start) = startsFrom tOff l := by
  induction l with
  | nil => intro idOff tOff; simp [assembleFrom, startsFrom]
  | cons p rest ih =>
    intro idOff tOff
    obtain ⟨chunk, res⟩ := p
    have hblock : (res.segments.enum.map (mkSeg keep idOff tOff)).map
        (fun s => s.start) = res.segments.map (fun s => s.start + tOff) := by
      rw [List.map_map]
      have : ((fun s : TranscriptSegment => s.start) ∘ mkSeg keep idOff tOff) =
          (fun s : RawSegment => s.start + tOff) ∘ Prod.snd := by
        funext q; simp [mkSeg]
      rw [this, ← List.map_map, List.enum_map_snd]
    simp only [assembleFrom, startsFrom, List.map_append, hblock,
      ih (idOff + res.segments.length) (tOff + chunk.duration)]

theorem validInput_cons {p : AudioChunk × RawChunkResult}
    {rest : List (AudioChunk × RawChunkResult)} (h : validInput (p :: rest)) :
    validChunk p ∧ validInput rest :=
  ⟨h p (List.mem_cons_self p rest), fun q hq => h q (List.mem_cons_of_mem p hq)⟩

theorem startsFrom_ge (l : List (AudioChunk × RawChunkResult)) :
    ∀ (tOff : ℚ), validInput l → ∀ x ∈ startsFrom tOff l, tOff ≤ x := by
  induction l with
  | nil => intro tOff _ x hx; simp [startsFrom] at hx
  | cons p rest ih =>
    intro tOff h x hx
    obtain ⟨chunk, res⟩ := p
    obtain ⟨hhead, htail⟩ := validInput_cons h
    simp only [startsFrom, List.mem_append, List.mem_map] at hx
    rcases hx with ⟨s, hs, rfl⟩ | hx
    · have h0 : 0 ≤ s.start := (hhead.2.1 s hs).1
      linarith
    · have hd : 0 ≤ chunk.duration := hhead.1
      have := ih (tOff + chunk.duration) htail x hx
      linarith

theorem startsFrom_chain (l : List (AudioChunk × RawChunkResult)) :
    ∀ (tOff : ℚ), validInput l → List.Chain' (· ≤ ·) (startsFrom tOff l) := by
  induction l with
  | nil => intro tOff _; simp [startsFrom]
  | cons p rest ih =>
    intro tOff h
    obtain ⟨chunk, res⟩ := p
    obtain ⟨hhead, htail⟩ := validInput_cons h
    simp only [startsFrom]
    rw [List.chain'_append]
    refine ⟨?_, ih (tOff + chunk.duration) htail, ?_⟩
    · rw [List.chain'_map]
      exact List.Chain'.imp (fun a b hab => by linarith) hhead.2.2
    · intro x hx y hy
      have hxm : x ∈ res.segments.map (fun s => s.start + tOff) :=
        List.mem_of_mem_getLast? hx
      obtain ⟨s, hs, rfl⟩ := List.mem_map.mp hxm
      have hym : y ∈ startsFrom (tOff + chunk.duration) rest :=
        List.mem_of_mem_head? hy
      have h1 : s.start ≤ chunk.duration := (hhead.2.1 s hs).2
      have h2 : tOff + chunk.duration ≤ y :=
        startsFrom_ge rest (tOff + chunk.duration) htail y hym
      linarith

/-! ### Claims C1–C3 -/

/-- C1: for every chunk list and per-chunk raw results, the assembled
segment at global position `segTotal (l.take i) + j` (the `j`-th raw segment
of chunk `i`) has `start = rawStart + timeOffset` and
`end = rawEnd + timeOffset`, where `timeOffset = durTotal (l.take i)` is the
sum of the encoder-computed durations of the preceding chunks — in both the
diarization and the legacy variant. -/
theorem segment_offsets (basePrompt : String)
    (l : List (AudioChunk × RawChunkResult)) (i j : Nat) (c : AudioChunk)
    (r : RawChunkResult) (raw : RawSegment) (h1 : l[i]? = some (c, r))
    (h2 : r.segments[j]? = some raw) :
    ((transcribeDiarize l).segments[segTotal (l.take i) + j]?).map
        (fun s => (s.start, s.end_)) =
      some (raw.start + durTotal (l.take i), raw.end_ + durTotal (l.take i)) ∧
    ((transcribeWhisper basePrompt l).segments[segTotal (l.take i) + j]?).map
        (fun s => (s.start, s.end_)) =
      some (raw.start + durTotal (l.take i), raw.end_ + durTotal (l.take i)) := by
  constructor
  · rw [transcribeDiarize_segments,
      assembleFrom_getElem true l i j 0 0 c r raw h1 h2]
    simp [mkSeg]
  · rw [transcribeWhisper_segments,
      assembleFrom_getElem false l i j 0 0 c r raw h1 h2]
    simp [mkSeg]

/-- Witness for C1, realizing the spec's concrete case: two chunks of
durations 25 and 15 seconds; chunk 1's first raw segment `[0,5)` is
assembled at `[25,30)` (and its second, `[5,15)`, at `[30,40)`), so chunk
1's segments span `[25,40)`. -/
theorem segment_offsets_witness :
    (((transcribeDiarize
        [(⟨[], 25⟩, ⟨"t0", [⟨0, 10, "a", none⟩, ⟨10, 25, "b", none⟩]⟩),
         (⟨[], 15⟩, ⟨"t1", [⟨0, 5, "c", none⟩, ⟨5, 15, "d", none⟩]⟩)]).segments[2]?).map
        (fun s => (s.start, s.end_)) = some ((25 : ℚ), (30 : ℚ))) ∧
    (((transcribeWhisper ("hint")
        [(⟨[], 25⟩, ⟨"t0", [⟨0, 10, "a", none⟩, ⟨10, 25, "b", none⟩]⟩),
         (⟨[], 15⟩, ⟨"t1", [⟨0, 5, "c", none⟩, ⟨5, 15, "d", none⟩]⟩)]).segments[2]?).map
        (fun s => (s.start, s.end_)) = some ((25 : ℚ), (30 : ℚ))) := by
  have h := segment_offsets ("hint")
    [(⟨[], 25⟩, ⟨"t0", [⟨0, 10, "a", none⟩, ⟨10, 25, "b", none⟩]⟩),
     (⟨[], 15⟩, ⟨"t1", [⟨0, 5, "c", none⟩, ⟨5, 15, "d", none⟩]⟩)]
    1 0 ⟨[], 15⟩ ⟨"t1", [⟨0, 5, "c", none⟩, ⟨5, 15, "d", none⟩]⟩
    ⟨0, 5, "c", none⟩ (by decide) (by decide)
  norm_num [segTotal, durTotal] at h ⊢
  exact h

/-- C2: in both variants, the assembled segment ids are exactly
`0, 1, …, N-1` in result order, `N` being the total raw segment count. -/
theorem segment_ids_range (basePrompt : String)
    (l : List (AudioChunk × RawChunkResult)) :
    (transcribeDiarize l).segments.map (fun s => s.id) =
        List.range (segTotal l) ∧
    (transcribeWhisper basePrompt l).segments.map (fun s => s.id) =
        List.range (segTotal l) := by
  constructor
  · rw [transcribeDiarize_segments, assembleFrom_ids, List.range_eq_range']
  · rw [transcribeWhisper_segments, assembleFrom_ids, List.range_eq_range']

/-- C3: for valid inputs (non-negative durations, chunk-local start times
within `[0, duration]` and non-decreasing within each response), the
assembled start times are monotonically non-decreasing across the whole
result, in both variants. -/
theorem segment_starts_monotone (basePrompt : String)
    (l : List (AudioChunk × RawChunkResult)) (h : validInput l) :
    List.Chain' (fun a b => a.start ≤ b.start) (transcribeDiarize l).segments ∧
    List.Chain' (fun a b => a.start ≤ b.start)
      (transcribeWhisper basePrompt l).segments := by
  constructor
  · rw [transcribeDiarize_segments]
    have hs := startsFrom_chain l 0 h
    rw [← assembleFrom_starts true l 0 0] at hs
    exact (List.chain'_map (fun s : TranscriptSegment => s.start)).mp hs
  · rw [transcribeWhisper_segments]
    have hs := startsFrom_chain l 0 h
    rw [← assembleFrom_starts false l 0 0] at hs
    exact (List.chain'_map (fun s : TranscriptSegment => s.start)).mp hs

/-- Witness for C3 at a concrete valid two-chunk input. -/
theorem segment_starts_monotone_witness :
    validInput
      [(⟨[], 25⟩, ⟨"t0", [⟨0, 10, "a", none⟩, ⟨10, 25, "b", none⟩]⟩),
       (⟨[], 15⟩, ⟨"t1", [⟨0, 5, "c", none⟩, ⟨5, 15, "d", none⟩]⟩)] ∧
    (List.Chain' (fun a b => a.start ≤ b.start)
        (transcribeDiarize
          [(⟨[], 25⟩, ⟨"t0", [⟨0, 10, "a", none⟩, ⟨10, 25, "b", none⟩]⟩),
           (⟨[], 15⟩, ⟨"t1", [⟨0, 5, "c", none⟩, ⟨5, 15, "d", none⟩]⟩)]).segments ∧
      List.Chain' (fun a b => a.start ≤ b.start)
        (transcribeWhisper ("hint")
          [(⟨[], 25⟩, ⟨"t0", [⟨0, 10, "a", none⟩, ⟨10, 25, "b", none⟩]⟩),
           (⟨[], 15⟩, ⟨"t1", [⟨0, 5, "c", none⟩, ⟨5, 15, "d", none⟩]⟩)]).segments) :=
  ⟨by decide, segment_starts_monotone ("hint") _ (by decide)⟩

/-! ### Claims C9, C10, C6: speaker labels and prompt mixing -/

/-- C9: `formatSpeakerLabel` applies its rules in order — `speaker_<N>`
(digit tail) maps to `"Speaker " ++ (N+1)`; a single letter maps to
`"Speaker " ++ alphabetPosition` (`A→1, …, Z→26`); any tag matching neither
rule is returned unchanged — and the spec's concrete examples hold. -/
theorem formatSpeakerLabel_spec :
    (∀ ds : List Char, ds ≠ [] → ds.all isDigitChar = true →
      formatSpeakerLabel ("speaker_" ++ String.mk ds) =
        "Speaker " ++ toString (digitsVal ds + 1)) ∧
    (∀ c ∈ ("ABCDEFGHIJKLMNOPQRSTUVWXYZ").toList,
      formatSpeakerLabel (String.mk [c]) = "Speaker " ++ toString (c.toNat - 64)) ∧
    (∀ raw : String, speakerNumMatch raw = none → singleLetterMatch raw = none →
      formatSpeakerLabel raw = raw) ∧
    formatSpeakerLabel ("speaker_0") = "Speaker 1" ∧
    formatSpeakerLabel ("speaker_5") = "Speaker 6" ∧
    formatSpeakerLabel ("A") = "Speaker 1" ∧
    formatSpeakerLabel ("C") = "Speaker 3" ∧
    formatSpeakerLabel ("narrator") = "narrator" := by
  refine ⟨?_, by decide, ?_, by decide, by decide, by decide, by decide, by decide⟩
  · intro ds hne hdig
    have h8 : ("speaker_" ++ String.mk ds).toList.take 8 = ("speaker_").toList := rfl
    have hd8 : ("speaker_" ++ String.mk ds).toList.drop 8 = ds := rfl
    have hnum : speakerNumMatch ("speaker_" ++ String.mk ds) = some (digitsVal ds) := by
      simp only [speakerNumMatch, h8, hd8]
      rw [if_pos ⟨by decide, hne, hdig⟩]
    simp [formatSpeakerLabel, hnum]
  · intro raw h1 h2
    simp [formatSpeakerLabel, h1, h2]

/-- Witness for C9: `speaker_5` maps to `Speaker 6`. -/
theorem formatSpeakerLabel_spec_witness :
    formatSpeakerLabel ("speaker_" ++ String.mk ['5']) =
      "Speaker " ++ toString (digitsVal ['5'] + 1) :=
  formatSpeakerLabel_spec.1 ['5'] (by decide) (by decide)

/-- C10: with an empty accumulated transcript (the first chunk of a legacy
transcription), `mixBasePromptAndTranscript` returns the base prompt
exactly — no ellipsis separator, no context tokens, for any tokenizer. -/
theorem mixBasePromptAndTranscript_empty (encode : String → List Nat)
    (decode : List Nat → String) (basePrompt : String) :
    mixBasePromptAndTranscript encode decode basePrompt ("") = basePrompt := rfl

set_option maxRecDepth 4000 in
/-- C6, evaluated at the failing boundary input: when the tokenized base
hint (with its ellipsis separator) is exactly 224 tokens long,
`availableTokens = 0`, and `slice(-0) = slice(0)` returns the whole
transcript token list — the prompt is the base hint followed by the ENTIRE
transcript (225 tokens here, over the `WHISPER_TOKEN_LIMIT` budget), not by
`224 - 224 = 0` trailing tokens as the claim (and the source's own doc
comment, "up to (224 - promptLength) tokens of context") requires. -/
theorem mixTokens_at_budget :
    mixTokens (List.replicate 224 0) [7] = List.replicate 224 0 ++ [7] ∧
    (mixTokens (List.replicate 224 0) [7]).length = 225 ∧
    whisperTokenLimit = 224 := by
  refine ⟨by decide, by decide, rfl⟩

/-- Below the budget boundary the window is exact: with fewer than 224
prompt tokens and a transcript longer than the available budget, the mixed
prompt is the prompt tokens followed by exactly the last
`224 - promptTokens.length` transcript tokens. -/
theorem mixTokens_window (p t : List Nat) (hp : p.length < 224)
    (ht : 224 - p.length < t.length) :
    mixTokens p t = p ++ t.drop (t.length - (224 - p.length)) := by
  have hlim : whisperTokenLimit = 224 := rfl
  simp only [mixTokens, jsSliceFrom, neg_neg]
  rw [if_pos (show -((whisperTokenLimit : Int) - (p.length : Int)) < 0 by
    rw [hlim]; push_cast; omega)]
  have htn : ((whisperTokenLimit : Int) - (p.length : Int)).toNat = 224 - p.length := by
    rw [hlim]; omega
  rw [htn, Nat.min_eq_left (by omega)]

/-! ### Claims C5, C8: encoder fast path and tiny budgets -/

/-- C5: when the raw buffer already fits the budget, the encoder returns
exactly one chunk wrapping the original bytes unchanged with `duration = 0`;
the result does not depend on `decoded`, i.e. the normalizer is never
consulted. -/
theorem fastPath_identity (audioData : List Nat) (decoded : DecodedAudio)
    (maxSize : Int) (h : (audioData.length : Int) ≤ maxSize) :
    audioDataToChunkedFiles audioData decoded maxSize =
      .ok [{ bytes := audioData, duration := 0 }] := by
  simp only [audioDataToChunkedFiles]
  rw [if_pos h]

/-- Witness for C5 at a concrete input. -/
theorem fastPath_identity_witness :
    audioDataToChunkedFiles [1, 2, 3] ⟨[[1/2]], 8⟩ 10 =
      .ok [{ bytes := [1, 2, 3], duration := 0 }] :=
  fastPath_identity [1, 2, 3] ⟨[[1/2]], 8⟩ 10 (by decide)

/-- C8 counterexample: `maxChunkBytes = 43 < 46`, slow path (50 input
bytes) — the source does not fail with any `EncodingError` (it defines no
such error); it returns a chunk list, namely the empty one. -/
theorem smallBudget_counterexample :
    audioDataToChunkedFiles (List.replicate 50 0) ⟨[[1/2, 1/4]], 8⟩ 43 =
      .ok [] := by decide

/-- C8 amended: a budget below the 44-byte header yields `chunkSamples < 0`,
`nChunks < 0`, so the loop never runs and an empty chunk list is returned
without any error; at budgets 44 and 45 (`chunkSamples = 0`) with nonempty
decoded audio the failure is the browser's `NotSupportedError` from
zero-length buffer creation — in no case an `EncodingError`. -/
theorem smallBudget_behavior (audioData : List Nat) (decoded : DecodedAudio)
    (maxSize : Int) (hslow : maxSize < (audioData.length : Int)) :
    (maxSize < 44 → audioDataToChunkedFiles audioData decoded maxSize = .ok []) ∧
    ((maxSize = 44 ∨ maxSize = 45) → (audioBufferToMono decoded).length ≠ 0 →
      audioDataToChunkedFiles audioData decoded maxSize = .domError) := by
  have hediv : (maxSize - 44).fdiv 2 = (maxSize - 44) / 2 :=
    Int.fdiv_eq_ediv (maxSize - 44) (by omega)
  constructor
  · intro h44
    have hneg : (maxSize - 44).fdiv 2 < 0 := by rw [hediv]; omega
    simp only [audioDataToChunkedFiles]
    rw [if_neg (not_le.mpr hslow), if_pos (le_of_lt hneg), if_neg]
    rintro ⟨h0, -⟩
    omega
  · intro h45 hmono
    have h0 : (maxSize - 44).fdiv 2 = 0 := by rw [hediv]; rcases h45 with h | h <;> simp [h]
    simp only [audioDataToChunkedFiles]
    rw [if_neg (not_le.mpr hslow), if_pos (le_of_eq h0), if_pos ⟨h0, hmono⟩]

/-- Witness for C8's amended statement, at budget 20 with 30 input bytes. -/
theorem smallBudget_behavior_witness :
    audioDataToChunkedFiles (List.replicate 30 0) ⟨[[1/2]], 8⟩ 20 = .ok [] :=
  (smallBudget_behavior (List.replicate 30 0) ⟨[[1/2]], 8⟩ 20 (by decide)).1 (by decide)

/-! ### Claim C7: the PCM data section -/

theorem map_range_getD {α β : Type} (l : List α) (d : α) (g : α → β) :
    (List.range l.length).map (fun i => g (l.getD i d)) = l.map g := by
  induction l with
  | nil => simp
  | cons a tl ih =>
    rw [show (a :: tl).length = tl.length + 1 from rfl, List.range_succ_eq_map]
    simp only [List.map_cons, List.map_map]
    congr 1

theorem wavHeader_length (numOfChannels sampleRate dataLen : Nat) :
    (wavHeader numOfChannels sampleRate dataLen).length = 44 := rfl

theorem wav_mono_data (samples : List ℚ) (sampleRate : Nat) :
    audioBufferToWav [samples] sampleRate =
      wavHeader 1 sampleRate (samples.length * 1 * 2) ++
        (samples.map (fun s => int16le (s * 32767))).flatten := by
  simp only [audioBufferToWav, List.headD_cons, List.length_cons, List.length_nil,
    List.map_cons, List.map_nil, List.flatten_cons, List.flatten_nil, List.append_nil]
  congr 1
  rw [map_range_getD samples 0 (fun s => int16le (s * 32767))]

/-- C7 (amended): in each mono chunk container the bytes from offset 44 on
are the per-sample two-byte little-endian stores of `setInt16 (sample * 0x7fff)`
— JavaScript `ToInt16`, i.e. truncation toward zero reduced mod 2^16, with
no rounding and no clamping. -/
theorem wav_data_section (samples : List ℚ) (sampleRate : Nat) :
    (audioBufferToWav [samples] sampleRate).drop 44 =
      (samples.map (fun s => int16le (s * 32767))).flatten := by
  rw [wav_mono_data]
  exact List.drop_left' (wavHeader_length 1 sampleRate (samples.length * 1 * 2))

/-- C7 counterexample: at sample `1/2` the source writes
`trunc (0.5 * 32767) = 16383` (`[255, 63]` little-endian), while the claimed
`round (0.5 * 32767) = 16384` would be `[0, 64]`: the data sections differ. -/
theorem wav_round_counterexample :
    (audioBufferToWav [[(1 : ℚ)/2]] 16000).drop 44 ≠ wavDataRoundSpec [(1 : ℚ)/2] := by
  rw [wav_mono_data]
  rw [List.drop_left' (wavHeader_length 1 16000 ([(1 : ℚ)/2].length * 1 * 2))]
  have htr : jsTrunc ((1 : ℚ)/2 * 32767) = 16383 := by
    rw [jsTrunc, if_pos (by norm_num)]
    norm_num
  have hrd : round ((1 : ℚ)/2 * 32767) = 16384 := by
    rw [round_eq]; norm_num
  simp only [wavDataRoundSpec, int16le, jsToInt16Bits, htr, hrd, List.map_cons,
    List.map_nil, List.flatten_cons, List.flatten_nil, List.append_nil]
  decide

/-! ### Claim C4: slow-path chunk count, slice lengths, durations -/

theorem wav_mono_length (samples : List ℚ) (sampleRate : Nat) :
    (audioBufferToWav [samples] sampleRate).length = 44 + 2 * samples.length := by
  rw [wav_mono_data, List.length_append, wavHeader_length, List.length_flatten,
    List.map_map]
  rw [show (List.length ∘ fun s : ℚ => int16le (s * 32767)) = fun _ : ℚ => 2 from
    funext (fun s => rfl)]
  rw [List.map_const', List.sum_replicate, smul_eq_mul]
  omega

theorem sliceChunk_bytes_length (mono : List ℚ) (rate cs i : Nat) :
    (sliceChunk mono rate cs i).bytes.length =
      44 + 2 * (min ((i + 1) * cs) mono.length - i * cs) := by
  simp only [sliceChunk]
  rw [wav_mono_length, List.length_take, List.length_drop]
  have hle : min ((i + 1) * cs) mono.length ≤ mono.length := min_le_right _ _
  rw [Nat.min_eq_left (Nat.sub_le_sub_right hle (i * cs))]

theorem sliceChunk_duration (mono : List ℚ) (rate cs i : Nat) :
    (sliceChunk mono rate cs i).duration =
      ((min ((i + 1) * cs) mono.length - i * cs : Nat) : ℚ) / (rate : ℚ) := rfl

theorem chunk_bounds (T cs : Nat) (h : 0 < cs) :
    T ≤ ((T + cs - 1) / cs) * cs ∧
      ∀ i, i < (T + cs - 1) / cs → i * cs < T := by
  have key1 : ((T + cs - 1) / cs) * cs ≤ T + cs - 1 := Nat.div_mul_le_self _ cs
  have key2' : T + cs - 1 < ((T + cs - 1) / cs) * cs + cs := by
    have h2 := (Nat.div_lt_iff_lt_mul h).mp
      (Nat.lt_succ_self ((T + cs - 1) / cs))
    calc T + cs - 1 < ((T + cs - 1) / cs + 1) * cs := h2
      _ = ((T + cs - 1) / cs) * cs + cs := by ring
  constructor
  · omega
  · intro i hi
    have h1 : (i + 1) * cs ≤ ((T + cs - 1) / cs) * cs :=
      Nat.mul_le_mul_right cs hi
    have h3 : (i + 1) * cs = i * cs + cs := by ring
    have h4 : 1 * cs ≤ ((T + cs - 1) / cs) * cs :=
      Nat.mul_le_mul_right cs (by omega)
    rw [one_mul] at h4
    omega

theorem telescope_sum (cs T : Nat) (n : Nat) :
    ((List.range n).map (fun i => min ((i + 1) * cs) T - min (i * cs) T)).sum
      = min (n * cs) T := by
  induction n with
  | zero => simp
  | succ m ih =>
    rw [List.range_succ, List.map_append, List.sum_append, ih]
    simp only [List.map_cons, List.map_nil, List.sum_cons, List.sum_nil]
    have hmono : min (m * cs) T ≤ min ((m + 1) * cs) T :=
      min_le_min (Nat.mul_le_mul_right cs (Nat.le_succ m)) le_rfl
    omega

theorem slowPath_eq (audioData : List Nat) (decoded : DecodedAudio) (maxSize : Int)
    (hslow : maxSize < (audioData.length : Int))
    (hcs : 0 < (maxSize - 44).fdiv 2) :
    audioDataToChunkedFiles audioData decoded maxSize =
      .ok ((List.range (((audioBufferToMono decoded).length +
          ((maxSize - 44).fdiv 2).toNat - 1) / ((maxSize - 44).fdiv 2).toNat)).map
        (sliceChunk (audioBufferToMono decoded) decoded.sampleRate
          ((maxSize - 44).fdiv 2).toNat)) := by
  simp only [audioDataToChunkedFiles]
  rw [if_neg (not_le.mpr hslow), if_neg (not_le.mpr hcs)]

/-- C4: on the slow path, with `chunkSamples = ⌊(maxChunkBytes - 44) / 2⌋ > 0`
and `T` decoded mono samples, the encoder returns exactly
`⌈T / chunkSamples⌉ = (T + chunkSamples - 1) / chunkSamples` chunks; their
sample-slice lengths (each recoverable from the chunk's WAV byte size as
`(bytes - 44) / 2`) sum to exactly `T`; every chunk except the last carries
exactly `chunkSamples` samples; and each chunk's duration is its slice
length divided by the sample rate. -/
theorem slowPath_chunking (audioData : List Nat) (decoded : DecodedAudio)
    (maxSize : Int) (hslow : maxSize < (audioData.length : Int))
    (hcs : 0 < (maxSize - 44).fdiv 2) :
    ∃ chunks : List AudioChunk,
      audioDataToChunkedFiles audioData decoded maxSize = .ok chunks ∧
      chunks.length = ((audioBufferToMono decoded).length +
          ((maxSize - 44).fdiv 2).toNat - 1) / ((maxSize - 44).fdiv 2).toNat ∧
      (chunks.map (fun c => (c.bytes.length - 44) / 2)).sum =
        (audioBufferToMono decoded).length ∧
      (∀ i (hi : i + 1 < chunks.length),
        ((chunks.get ⟨i, Nat.lt_of_succ_lt hi⟩).bytes.length - 44) / 2 =
          ((maxSize - 44).fdiv 2).toNat) ∧
      (∀ c ∈ chunks, c.duration =
        (((c.bytes.length - 44) / 2 : Nat) : ℚ) / (decoded.sampleRate : ℚ)) := by
  have hcs0 : 0 < ((maxSize - 44).fdiv 2).toNat := by
    have h := Int.toNat_of_nonneg (le_of_lt hcs)
    omega
  set T := (audioBufferToMono decoded).length with hT
  set cs := ((maxSize - 44).fdiv 2).toNat with hcsdef
  set n := (T + cs - 1) / cs with hn
  obtain ⟨hA, hB⟩ := chunk_bounds T cs hcs0
  refine ⟨_, slowPath_eq audioData decoded maxSize hslow hcs, ?_, ?_, ?_, ?_⟩
  · simp
  · rw [List.map_map]
    have hpt : ∀ i ∈ List.range n,
        ((fun c : AudioChunk => (c.bytes.length - 44) / 2) ∘
          sliceChunk (audioBufferToMono decoded) decoded.sampleRate cs) i =
        min ((i + 1) * cs) T - min (i * cs) T := by
      intro i hi
      have hmin : min (i * cs) T = i * cs :=
        Nat.min_eq_left (le_of_lt (hB i (List.mem_range.mp hi)))
      rw [Function.comp_apply, sliceChunk_bytes_length, hmin]
      omega
    rw [List.map_congr_left hpt, telescope_sum]
    exact Nat.min_eq_right hA
  · intro i hi
    have hgeti : (List.map (sliceChunk (audioBufferToMono decoded)
        decoded.sampleRate cs) (List.range n)).get ⟨i, Nat.lt_of_succ_lt hi⟩ =
        sliceChunk (audioBufferToMono decoded) decoded.sampleRate cs i := by
      rw [List.get_eq_getElem, List.getElem_map, List.getElem_range]
    rw [hgeti, sliceChunk_bytes_length]
    have hi1 : i + 1 < n := by simpa using hi
    have h1 : (i + 1) * cs < T := hB (i + 1) hi1
    have hmin1 : min ((i + 1) * cs) T = (i + 1) * cs := Nat.min_eq_left (le_of_lt h1)
    have h2 : (i + 1) * cs = i * cs + cs := by ring
    omega
  · intro c hc
    obtain ⟨i, hi, rfl⟩ := List.mem_map.mp hc
    rw [sliceChunk_duration, sliceChunk_bytes_length]
    have harith : (44 + 2 * (min ((i + 1) * cs) T - i * cs) - 44) / 2 =
        min ((i + 1) * cs) T - i * cs := by omega
    rw [harith]

/-- Witness for C4: 100 input bytes, budget 50 (`chunkSamples = 3`), five
decoded mono samples — two chunks, slice lengths 3 and 2. -/
theorem slowPath_chunking_witness :
    ∃ chunks : List AudioChunk,
      audioDataToChunkedFiles (List.replicate 100 0)
          ⟨[[1/2, 0, 1/4, 1, 3/4]], 4⟩ 50 = .ok chunks ∧
      chunks.length = ((audioBufferToMono ⟨[[1/2, 0, 1/4, 1, 3/4]], 4⟩).length +
          (((50 : Int) - 44).fdiv 2).toNat - 1) / (((50 : Int) - 44).fdiv 2).toNat ∧
      (chunks.map (fun c => (c.bytes.length - 44) / 2)).sum =
        (audioBufferToMono ⟨[[1/2, 0, 1/4, 1, 3/4]], 4⟩).length ∧
      (∀ i (hi : i + 1 < chunks.length),
        ((chunks.get ⟨i, Nat.lt_of_succ_lt hi⟩).bytes.length - 44) / 2 =
          (((50 : Int) - 44).fdiv 2).toNat) ∧
      (∀ c ∈ chunks, c.duration =
        (((c.bytes.length - 44) / 2 : Nat) : ℚ) /
          ((DecodedAudio.mk [[1/2, 0, 1/4, 1, 3/4]] 4).sampleRate : ℚ)) :=
  slowPath_chunking (List.replicate 100 0) ⟨[[1/2, 0, 1/4, 1, 3/4]], 4⟩ 50
    (by decide) (by decide)

end MeetingsAI
